import Mathlib

/-!
Verification of the multipart serialisation pattern shown in
`examples/serialisation.ipynb`: a writer `save` that emits one line of
JSON-encoded hyperparameters followed by the raw bytes of every weight
leaf, and a reader `load` that parses the line, rebuilds a skeleton with
the constructor `make`, and fills the skeleton's leaves from the rest of
the stream.

The byte stream is modelled as `List Nat` (each entry one byte /
codepoint).  The host-framework primitives (`json.dumps` / `json.loads`,
`eqx.tree_serialise_leaves` / `eqx.tree_deserialise_leaves`,
`eqx.nn.MLP` initialisation) are not part of the repository fragment and
are modelled from the spec; the notebook's own `save`, `load` and `make`
are translated directly.
-/

deriving instance DecidableEq for Except

namespace Equinox

/-- Codepoints of an ASCII string, used to move between Lean string
literals and the byte-level model. -/
def sb (s : String) : List Nat := s.data.map Char.toNat

/-- Failure kinds of the pattern, as named by the spec's error-handling
design (plus a kind for the constructor itself raising). -/
inductive Err where
  | malformedHeader
  | shapeMismatch
  | truncatedStream
  | unencodableHyperparameters
  | constructorError
deriving DecidableEq, Repr

/-- A Python value that may appear as a hyperparameter: integers,
booleans, strings, or a non-JSON-serialisable value (e.g. a lambda),
which `pfun` stands for. -/
inductive PVal where
  | pint (n : Int)
  | pbool (b : Bool)
  | pstr (s : List Nat)
  | pfun
deriving DecidableEq, Repr

/-- A hyperparameter mapping: association list of key codepoints to
values (models a Python `dict`, whose iteration order is insertion
order). -/
abbrev PyDict : Type := List (List Nat × PVal)

/-- Modelled from the spec: the layout of one weight leaf (dtype code
plus shape), which together with the dtype's element size determines the
leaf's byte count. -/
structure Layout where
  dtypeCode : Nat
  shape : List Nat
deriving DecidableEq, Repr

/-- Element size in bytes for a dtype code; code 0 is float32. -/
def dtypeSize (c : Nat) : Nat :=
  if c = 0 then 4 else if c = 1 then 8 else 1

/-- Number of payload bytes of a leaf with the given layout. -/
def Layout.byteSize (l : Layout) : Nat :=
  dtypeSize l.dtypeCode * l.shape.foldl (fun a d => a * d) 1

/-- One weight leaf: its layout and its raw payload bytes. -/
structure Leaf where
  layout : Layout
  data : List Nat
deriving DecidableEq, Repr

/-- A model: the activation choice (a non-leaf field, `tanh` vs `relu`)
and the ordered list of weight leaves. -/
structure Model where
  useTanh : Bool
  leaves : List Leaf
deriving DecidableEq, Repr

/-- Every leaf's payload has exactly the byte count its layout
announces. -/
def LeavesWF (ls : List Leaf) : Prop :=
  ∀ lf ∈ ls, lf.data.length = lf.layout.byteSize

instance : DecidablePred LeavesWF := fun _ => by
  unfold LeavesWF; infer_instance

/-- Modelled from the spec: the self-delimiting header written for one
leaf by the host framework's leaf serialiser (dtype code, shape length,
shape dims). -/
def encodeLayout (l : Layout) : List Nat :=
  l.dtypeCode :: l.shape.length :: l.shape

/-- Modelled from the spec: decode one leaf header from the front of a
byte stream, returning the layout and the remaining bytes. -/
def decodeLayout (bs : List Nat) : Option (Layout × List Nat) :=
  match bs with
  | d :: n :: rest =>
      if n ≤ rest.length then some (⟨d, rest.take n⟩, rest.drop n) else none
  | _ => none

/-- Modelled from the spec: `eqx.tree_serialise_leaves` — every leaf in
deterministic traversal order, each as its header followed by its raw
payload, with no separators. -/
def tree_serialise_leaves (ls : List Leaf) : List Nat :=
  (ls.map (fun lf => encodeLayout lf.layout ++ lf.data)).flatten

/-- Modelled from the spec: the core of `eqx.tree_deserialise_leaves`.
It walks the skeleton's leaf layouts in order; for each it decodes a
leaf header (short stream: `truncatedStream`), requires it to equal the
skeleton's layout (`shapeMismatch` otherwise), and takes the layout's
byte count of payload (`truncatedStream` if short).  Any bytes left over
after the last leaf are a structure mismatch.  The result depends on the
skeleton only through its layouts; the skeleton's placeholder payloads
are discarded. -/
def deserialiseLayouts : List Layout → List Nat → Except Err (List Leaf)
  | [], bs => if bs = [] then .ok [] else .error .shapeMismatch
  | lay :: t, bs =>
      match decodeLayout bs with
      | none => .error .truncatedStream
      | some (l2, rest) =>
          if l2 = lay then
            if lay.byteSize ≤ rest.length then
              (deserialiseLayouts t (rest.drop lay.byteSize)).map
                (fun ls => ⟨lay, rest.take lay.byteSize⟩ :: ls)
            else .error .truncatedStream
          else .error .shapeMismatch

/-- Modelled from the spec: `eqx.tree_deserialise_leaves` applied to a
model skeleton — non-leaf fields (the activation) come from the
skeleton, every leaf payload from the stream. -/
def tree_deserialise_leaves (bs : List Nat) (skel : Model) : Except Err Model :=
  (deserialiseLayouts (skel.leaves.map Leaf.layout) bs).map
    (fun ls => ⟨skel.useTanh, ls⟩)

/-- Per-layer (fan-in, fan-out) sizes of `eqx.nn.MLP` with the given
`in_size`, `width_size`, `depth` and `out_size = 1`, as the notebook's
`make` builds it. -/
def mlpLayerDims (size width depth : Nat) : List (Nat × Nat) :=
  if depth = 0 then [(size, 1)]
  else (size, width) :: (List.replicate (depth - 1) (width, width) ++ [(width, 1)])

/-- float32 dtype code. -/
def f32 : Nat := 0

/-- Leaf layouts of the MLP: for each linear layer, a weight matrix
`[out, in]` then a bias vector `[out]`, both float32. -/
def layoutsOf (size width depth : Nat) : List Layout :=
  (mlpLayerDims size width depth).flatMap
    (fun p => [⟨f32, [p.2, p.1]⟩, ⟨f32, [p.2]⟩])

/-- Modelled from the spec: the host framework's pseudo-random weight
initialisation, abstracted as a deterministic byte-valued function of
the PRNG key, the leaf index and the byte position. -/
def prngByte (key i j : Nat) : Nat :=
  (key * 2654435761 + i * 97 + j * 131 + 7) % 256

/-- Build the leaves for the given layouts, filling each payload from
the key-seeded generator. -/
def mkLeaves (key : Nat) : Nat → List Layout → List Leaf
  | _, [] => []
  | i, lay :: t =>
      ⟨lay, (List.range lay.byteSize).map (prngByte key i)⟩ :: mkLeaves key (i + 1) t

/-- The notebook's `make`: an MLP whose structure is fixed by `size`,
`width`, `depth` and whose activation is `tanh` when `use_tanh` else
`relu`; weights drawn from `key`. -/
def make (key size width depth : Nat) (useTanh : Bool) : Model :=
  ⟨useTanh, mkLeaves key 0 (layoutsOf size width depth)⟩

/-- Keyword names `make` accepts besides `key`. -/
def allowedKeys : List (List Nat) := [sb "size", sb "width", sb "depth", sb "use_tanh"]

/-- Dictionary lookup (first binding wins, as in a Python dict). -/
def lookupK (H : PyDict) (k : List Nat) : Option PVal :=
  (List.find? (fun p => p.1 = k) H).map Prod.snd

/-- A required integer parameter: present, an integer, and non-negative
(the MLP construction needs a well-formed dimension). -/
def getIntParam (H : PyDict) (k : List Nat) : Except Err Nat :=
  match lookupK H k with
  | some (.pint n) => if 0 ≤ n then .ok n.toNat else .error .constructorError
  | _ => .error .constructorError

/-- The optional boolean `use_tanh` parameter, defaulting to `False`. -/
def getBoolParam (H : PyDict) (k : List Nat) : Except Err Bool :=
  match lookupK H k with
  | none => .ok false
  | some (.pbool b) => .ok b
  | some _ => .error .constructorError

/-- Keyword binding of `make(key=…, **params)`: rejects unknown or
duplicate keys, requires integer `size`, `width`, `depth` and an
optional boolean `use_tanh`.  Any violation models the constructor
raising. -/
def paramsOf (H : PyDict) : Except Err (Nat × Nat × Nat × Bool) :=
  if (∀ p ∈ H, p.1 ∈ allowedKeys) ∧ (H.map Prod.fst).Nodup then do
    let s ← getIntParam H (sb "size")
    let w ← getIntParam H (sb "width")
    let d ← getIntParam H (sb "depth")
    let u ← getBoolParam H (sb "use_tanh")
    .ok (s, w, d, u)
  else .error .constructorError

/-- `make(key=key, **H)`: bind the keyword arguments, then build. -/
def makeFromParams (key : Nat) (H : PyDict) : Except Err Model :=
  (paramsOf H).map (fun q => make key q.1 q.2.1 q.2.2.1 q.2.2.2)

/-- Hex digit character (lowercase) for a value below 16, as Python's
json module emits. -/
def hexDig (x : Nat) : Nat := if x < 10 then 48 + x else 87 + x

/-- Value of a hex digit character, upper or lower case accepted. -/
def hexVal (c : Nat) : Option Nat :=
  if 48 ≤ c ∧ c ≤ 57 then some (c - 48)
  else if 97 ≤ c ∧ c ≤ 102 then some (c - 87)
  else if 65 ≤ c ∧ c ≤ 70 then some (c - 55)
  else none

/-- Modelled from the spec: `json.dumps` escaping of one string
character with its default `ensure_ascii` behaviour — short escapes for
quote, backslash and the usual control characters, a `\uXXXX` escape
for every other character outside printable ASCII.  In particular the
output never contains a newline byte. -/
def escChar (c : Nat) : List Nat :=
  if c = 34 then [92, 34]
  else if c = 92 then [92, 92]
  else if c = 10 then [92, 110]
  else if c = 13 then [92, 114]
  else if c = 9 then [92, 116]
  else if c = 8 then [92, 98]
  else if c = 12 then [92, 102]
  else if 32 ≤ c ∧ c ≤ 126 then [c]
  else [92, 117, hexDig (c / 4096 % 16), hexDig (c / 256 % 16),
        hexDig (c / 16 % 16), hexDig (c % 16)]

/-- Escape every character of a string body. -/
def escapeStr (s : List Nat) : List Nat := s.flatMap escChar

/-- Decimal digit characters of a natural number (big-endian), written
with fuel so that the kernel can evaluate it. -/
def natDecAux : Nat → Nat → List Nat
  | 0, _ => []
  | fuel + 1, n => if n < 10 then [48 + n] else natDecAux fuel (n / 10) ++ [48 + n % 10]

/-- Decimal digit characters of a natural number. -/
def natDec (n : Nat) : List Nat := natDecAux (n + 1) n

/-- Characters of an integer literal as Python's json module emits
it. -/
def intDec (n : Int) : List Nat :=
  if n < 0 then 45 :: natDec (-n).toNat else natDec n.toNat

/-- Modelled from the spec: JSON encoding of a Python string, wrapped
in quotes with its characters escaped.  Characters outside the basic
multilingual plane are treated as unencodable in this model. -/
def encStr (s : List Nat) : Option (List Nat) :=
  if s.all (fun c => c < 65536) then some (34 :: (escapeStr s ++ [34])) else none

/-- Modelled from the spec: JSON encoding of one hyperparameter value;
`none` models `json.dumps` raising `TypeError` on a value that is not
JSON-representable. -/
def encVal : PVal → Option (List Nat)
  | .pint n => some (intDec n)
  | .pbool true => some (sb "true")
  | .pbool false => some (sb "false")
  | .pstr s => encStr s
  | .pfun => none

/-- One `"key": value` item, with Python's default `": "` separator. -/
def encPair (k : List Nat) (v : PVal) : Option (List Nat) :=
  match encStr k, encVal v with
  | some ks, some vs => some (ks ++ 58 :: 32 :: vs)
  | _, _ => none

/-- The comma-separated items of the object, with Python's default
`", "` separator. -/
def encPairs : PyDict → Option (List Nat)
  | [] => some []
  | [p] => encPair p.1 p.2
  | p :: q :: t =>
      match encPair p.1 p.2, encPairs (q :: t) with
      | some a, some b => some (a ++ 44 :: 32 :: b)
      | _, _ => none

/-- Modelled from the spec: `json.dumps` on the hyperparameter dict —
a single-line object, or `none` when some value is not
JSON-representable. -/
def dumps (H : PyDict) : Option (List Nat) :=
  (encPairs H).map (fun body => 123 :: (body ++ [125]))

/-- JSON insignificant whitespace. -/
def isWsB (c : Nat) : Bool := c = 32 || c = 9 || c = 10 || c = 13

/-- Drop leading whitespace. -/
def skipWs (l : List Nat) : List Nat := l.dropWhile isWsB

/-- ASCII decimal digit test. -/
def isDigitB (c : Nat) : Bool := 48 ≤ c && c ≤ 57

/-- Numeric value of a big-endian run of digit characters. -/
def natFromDigits (ds : List Nat) : Nat :=
  ds.foldl (fun a c => a * 10 + (c - 48)) 0

/-- Parse an unsigned JSON integer literal: the longest run of digits,
rejecting a leading zero on a multi-digit literal. -/
def parseNumNat (l : List Nat) : Option (Nat × List Nat) :=
  match l.takeWhile isDigitB, l.dropWhile isDigitB with
  | [], _ => none
  | d :: ds, rest =>
      if d = 48 ∧ ds ≠ [] then none else some (natFromDigits (d :: ds), rest)

/-- Parse a JSON integer literal with optional sign. -/
def parseNum (l : List Nat) : Option (Int × List Nat) :=
  match l with
  | [] => none
  | c :: r =>
      if c = 45 then (parseNumNat r).map (fun p => (-(p.1 : Int), p.2))
      else (parseNumNat (c :: r)).map (fun p => ((p.1 : Int), p.2))

/-- Value of a single-character string escape. -/
def unesc (e : Nat) : Option Nat :=
  if e = 34 then some 34 else if e = 92 then some 92 else if e = 47 then some 47
  else if e = 98 then some 8 else if e = 102 then some 12 else if e = 110 then some 10
  else if e = 114 then some 13 else if e = 116 then some 9 else none

/-- Modelled from the spec: parse the body of a JSON string after its
opening quote, up to and including the closing quote, decoding escapes;
returns the decoded characters and the remaining input. -/
def parseStrBody : List Nat → Option (List Nat × List Nat)
  | [] => none
  | c :: rest =>
      if c = 34 then some ([], rest)
      else if c = 92 then
        match rest with
        | [] => none
        | e :: rest2 =>
            if e = 117 then
              match rest2 with
              | a :: b :: c2 :: d :: rest3 =>
                  match hexVal a, hexVal b, hexVal c2, hexVal d with
                  | some x1, some x2, some x3, some x4 =>
                      match parseStrBody rest3 with
                      | some (s, r) => some ((x1 * 4096 + x2 * 256 + x3 * 16 + x4) :: s, r)
                      | none => none
                  | _, _, _, _ => none
              | _ => none
            else
              match unesc e with
              | some u =>
                  match parseStrBody rest2 with
                  | some (s, r) => some (u :: s, r)
                  | none => none
              | none => none
      else if c < 32 then none
      else
        match parseStrBody rest with
        | some (s, r) => some (c :: s, r)
        | none => none

/-- Modelled from the spec: parse one JSON scalar value — a string,
`true`, `false`, or an integer. -/
def parseScalar (l : List Nat) : Option (PVal × List Nat) :=
  match l with
  | [] => none
  | c :: rest =>
      if c = 34 then (parseStrBody rest).map (fun p => (PVal.pstr p.1, p.2))
      else if c = 116 then
        match rest with
        | 114 :: 117 :: 101 :: r => some (PVal.pbool true, r)
        | _ => none
      else if c = 102 then
        match rest with
        | 97 :: 108 :: 115 :: 101 :: r => some (PVal.pbool false, r)
        | _ => none
      else (parseNum (c :: rest)).map (fun p => (PVal.pint p.1, p.2))

/-- Modelled from the spec: parse `"key": value` items separated by
commas, consuming the closing brace.  Fuel bounds the recursion, one
unit per item; callers supply at least the input length, which always
suffices since every item consumes input. -/
def parsePairs : Nat → List Nat → Option (PyDict × List Nat)
  | 0, _ => none
  | fuel + 1, l =>
      match skipWs l with
      | 34 :: r1 =>
          match parseStrBody r1 with
          | none => none
          | some (k, r2) =>
              match skipWs r2 with
              | 58 :: r3 =>
                  match parseScalar (skipWs r3) with
                  | none => none
                  | some (v, r4) =>
                      match skipWs r4 with
                      | 44 :: r5 =>
                          (parsePairs fuel r5).map (fun p => ((k, v) :: p.1, p.2))
                      | 125 :: r5 => some ([(k, v)], r5)
                      | _ => none
              | _ => none
      | _ => none

/-- Modelled from the spec: `json.loads` restricted to the spec's data
model — one flat JSON object of scalar values, possibly surrounded by
whitespace.  `none` models a `json.JSONDecodeError`. -/
def loads (l : List Nat) : Option PyDict :=
  match skipWs l with
  | 123 :: rest =>
      match skipWs rest with
      | 125 :: r2 => if skipWs r2 = [] then some [] else none
      | r =>
          match parsePairs (l.length + 1) r with
          | some (obj, rest2) => if skipWs rest2 = [] then some obj else none
          | none => none
  | _ => none

/-- The notebook's `save`: the JSON header line followed by the
serialised leaves; fails when `json.dumps` cannot encode the
hyperparameters. -/
def save (params : PyDict) (model : Model) : Except Err (List Nat) :=
  match dumps params with
  | none => .error .unencodableHyperparameters
  | some line => .ok (line ++ 10 :: tree_serialise_leaves model.leaves)

/-- The notebook's `save` together with the destination file's
contents: `open(filename, "wb")` truncates the destination before
`json.dumps` runs, so a failed encode leaves an empty file instead of
the previous contents `pre`. -/
def saveFS (params : PyDict) (model : Model) (pre : List Nat) :
    Except Err Unit × List Nat :=
  match save params model with
  | .error e => (.error e, [])
  | .ok bs => (.ok (), bs)

/-- `f.readline()` and what remains: the first line's bytes (newline
excluded) and everything after the first newline byte. -/
def readline (bs : List Nat) : List Nat × List Nat :=
  (bs.takeWhile (fun c => c ≠ 10), (bs.dropWhile (fun c => c ≠ 10)).drop 1)

/-- The notebook's `load`, generalised over the constructor applied to
the parsed hyperparameters (the notebook passes
`make(key=jr.PRNGKey(0), **params)`), and returning the parsed
hyperparameters alongside the model. -/
def loadWith (mk : PyDict → Except Err Model) (bs : List Nat) :
    Except Err (PyDict × Model) :=
  match loads (readline bs).1 with
  | none => .error .malformedHeader
  | some params =>
      match mk params with
      | .error e => .error e
      | .ok skel =>
          (tree_deserialise_leaves (readline bs).2 skel).map (fun m => (params, m))

/-- `load` with the skeleton's PRNG key made explicit. -/
def loadWithKey (key : Nat) (bs : List Nat) : Except Err (PyDict × Model) :=
  loadWith (makeFromParams key) bs

/-- The notebook's `load`, also exposing the hyperparameters it parses
internally (its skeleton key is `jr.PRNGKey(0)`). -/
def loadPair (bs : List Nat) : Except Err (PyDict × Model) := loadWithKey 0 bs

/-- The notebook's `load` as written: the deserialised model. -/
def load (bs : List Nat) : Except Err Model := (loadPair bs).map Prod.snd

/-- File-handle events of one operation on the byte sink or source. -/
inductive FEv where
  | fopen
  | fwrite (bs : List Nat)
  | freadline
  | freadall
  | fclose
deriving DecidableEq, Repr

/-- Is the event an open? -/
def isOpenEv : FEv → Bool
  | .fopen => true
  | _ => false

/-- Is the event a close? -/
def isCloseEv : FEv → Bool
  | .fclose => true
  | _ => false

/-- The file-handle events of `save`: the `with open(filename, "wb")`
block opens the sink once, all writes happen inside it, and the handle
is closed when the block exits — also when `json.dumps` raises. -/
def saveEvents (params : PyDict) (model : Model) : List FEv :=
  (FEv.fopen :: (match dumps params with
    | none => []
    | some line => [FEv.fwrite (line ++ [10]),
                    FEv.fwrite (tree_serialise_leaves model.leaves)]))
    ++ [FEv.fclose]

/-- The file-handle events of `load`: the `with open(filename, "rb")`
block opens the source once, the line read and the leaf read happen
inside it, and the handle is closed when the block exits — also when
parsing or construction raises. -/
def loadEvents (bs : List Nat) : List FEv :=
  ([FEv.fopen, FEv.freadline]
    ++ (match loads (readline bs).1 with
        | none => []
        | some params =>
            match makeFromParams 0 params with
            | .error _ => []
            | .ok _ => [FEv.freadall]))
    ++ [FEv.fclose]

/-- Opens in an event trace. -/
def countOpen (evs : List FEv) : Nat := evs.countP isOpenEv

/-- Closes in an event trace. -/
def countClose (evs : List FEv) : Nat := evs.countP isCloseEv

/-- The notebook's hyperparameter dict:
`{"size": 5, "width": 10, "depth": 3, "use_tanh": True}`. -/
def exampleH : PyDict :=
  [(sb "size", PVal.pint 5), (sb "width", PVal.pint 10),
   (sb "depth", PVal.pint 3), (sb "use_tanh", PVal.pbool true)]

/-- The notebook's model, built with `key = jr.PRNGKey(0)` from
`exampleH`. -/
def exampleM : Model := make 0 5 10 3 true

/-- A small hyperparameter dict used to evaluate theorems on concrete
inputs. -/
def exSmallH : PyDict :=
  [(sb "size", PVal.pint 1), (sb "width", PVal.pint 2), (sb "depth", PVal.pint 1)]

/-- The model built from `exSmallH` with key 3. -/
def exSmallM : Model := make 3 1 2 1 false

/-- The bytes `save` produces for the small example. -/
def exSmallOut : List Nat :=
  match save exSmallH exSmallM with
  | .ok bs => bs
  | .error _ => []

/-- A hyperparameter dict holding a value (a lambda, say) that
`json.dumps` cannot encode. -/
def badH : PyDict := [(sb "size", PVal.pfun)]

/-- The float32 element at position (2, 2) of `model.layers[1].weight`:
leaf index 2 is layer 1's weight matrix (each layer contributes a
weight leaf then a bias leaf), and element (2, 2) of its 10 × 10
float32 payload occupies bytes 88..91. -/
def layer1w22 (m : Model) : Option (List Nat) :=
  m.leaves[2]?.map (fun lf => (lf.data.drop 88).take 4)

/-! ### List scanning helpers -/

theorem takeWhile_append_eq {p : Nat → Bool} {l1 l2 : List Nat}
    (h1 : ∀ a ∈ l1, p a = true) (h2 : ∀ c, l2.head? = some c → p c = false) :
    (l1 ++ l2).takeWhile p = l1 := by
  induction l1 with
  | nil =>
      cases l2 with
      | nil => rfl
      | cons c t => simp [List.takeWhile_cons, h2 c rfl]
  | cons a t ih =>
      simp only [List.cons_append, List.takeWhile_cons]
      rw [h1 a (by simp)]
      simp [ih (fun b hb => h1 b (by simp [hb]))]

theorem dropWhile_append_eq {p : Nat → Bool} {l1 l2 : List Nat}
    (h1 : ∀ a ∈ l1, p a = true) (h2 : ∀ c, l2.head? = some c → p c = false) :
    (l1 ++ l2).dropWhile p = l2 := by
  induction l1 with
  | nil =>
      cases l2 with
      | nil => rfl
      | cons c t => simp [List.dropWhile_cons, h2 c rfl]
  | cons a t ih =>
      simp only [List.cons_append, List.dropWhile_cons]
      rw [h1 a (by simp)]
      simpa using ih (fun b hb => h1 b (by simp [hb]))

theorem skipWs_cons_of_not_ws {c : Nat} {l : List Nat} (h : isWsB c = false) :
    skipWs (c :: l) = c :: l := by
  simp [skipWs, List.dropWhile_cons, h]

theorem skipWs_eq_self {l : List Nat}
    (h : ∀ c, l.head? = some c → isWsB c = false) : skipWs l = l := by
  cases l with
  | nil => rfl
  | cons c t => exact skipWs_cons_of_not_ws (h c rfl)

theorem skipWs_space (l : List Nat) : skipWs (32 :: l) = skipWs l := by
  simp [skipWs, List.dropWhile_cons, isWsB]

/-! ### Decimal digits -/

theorem natDecAux_mem {fuel n : Nat} (h : n < fuel) :
    ∀ c ∈ natDecAux fuel n, 48 ≤ c ∧ c ≤ 57 := by
  induction fuel generalizing n with
  | zero => omega
  | succ fuel ih =>
      intro c hc
      rw [natDecAux] at hc
      by_cases hn : n < 10
      · rw [if_pos hn] at hc
        simp at hc
        omega
      · rw [if_neg hn] at hc
        rcases List.mem_append.mp hc with h1 | h1
        · exact ih (by omega) c h1
        · simp at h1
          omega

theorem natDecAux_foldl {fuel n : Nat} (h : n < fuel) (acc : Nat) :
    (natDecAux fuel n).foldl (fun a c => a * 10 + (c - 48)) acc =
      acc * 10 ^ (natDecAux fuel n).length + n := by
  induction fuel generalizing n acc with
  | zero => omega
  | succ fuel ih =>
      rw [natDecAux]
      by_cases hn : n < 10
      · rw [if_pos hn]
        simp only [List.foldl_cons, List.foldl_nil, List.length_singleton]
        omega
      · rw [if_neg hn]
        rw [List.foldl_append, ih (by omega) acc]
        simp only [List.foldl_cons, List.foldl_nil, List.length_append,
          List.length_singleton]
        rw [pow_succ]
        have hmod : (48 + n % 10) - 48 = n % 10 := by omega
        rw [hmod]
        have : acc * (10 ^ (natDecAux fuel (n / 10)).length * 10) =
            acc * 10 ^ (natDecAux fuel (n / 10)).length * 10 := by ring
        rw [this]
        omega

theorem natDecAux_ne_nil {fuel n : Nat} (h : n < fuel) : natDecAux fuel n ≠ [] := by
  cases fuel with
  | zero => omega
  | succ fuel =>
      rw [natDecAux]
      by_cases hn : n < 10
      · simp [if_pos hn]
      · rw [if_neg hn]
        simp

theorem natDecAux_head_of_pos {fuel n : Nat} (h : n < fuel) (hp : 1 ≤ n) :
    ∃ d t, natDecAux fuel n = d :: t ∧ 49 ≤ d ∧ d ≤ 57 := by
  induction fuel generalizing n with
  | zero => omega
  | succ fuel ih =>
      rw [natDecAux]
      by_cases hn : n < 10
      · exact ⟨48 + n, [], by rw [if_pos hn], by omega, by omega⟩
      · rw [if_neg hn]
        obtain ⟨d, t, heq, hd1, hd2⟩ := ih (show n / 10 < fuel by omega) (by omega)
        exact ⟨d, t ++ [48 + n % 10], by rw [heq]; rfl, hd1, hd2⟩

theorem natDec_mem {n : Nat} : ∀ c ∈ natDec n, 48 ≤ c ∧ c ≤ 57 :=
  natDecAux_mem (Nat.lt_succ_self n)

theorem natFromDigits_natDec (n : Nat) : natFromDigits (natDec n) = n := by
  have := natDecAux_foldl (Nat.lt_succ_self n) 0
  simpa [natFromDigits, natDec] using this

theorem natDec_ne_nil (n : Nat) : natDec n ≠ [] :=
  natDecAux_ne_nil (Nat.lt_succ_self n)

theorem parseNum_cons (c : Nat) (r : List Nat) :
    parseNum (c :: r) =
      if c = 45 then (parseNumNat r).map (fun p => (-(p.1 : Int), p.2))
      else (parseNumNat (c :: r)).map (fun p => ((p.1 : Int), p.2)) := rfl

theorem parseNumNat_natDec (n : Nat) (rest : List Nat)
    (hb : ∀ c, rest.head? = some c → isDigitB c = false) :
    parseNumNat (natDec n ++ rest) = some (n, rest) := by
  have hdig : ∀ a ∈ natDec n, isDigitB a = true := by
    intro a ha
    have := natDec_mem a ha
    simp [isDigitB]
    omega
  have htake := takeWhile_append_eq hdig hb
  have hdrop := dropWhile_append_eq hdig hb
  rw [parseNumNat, htake, hdrop]
  by_cases hn : n < 10
  · have hne : natDec n = [48 + n] := by
      rw [natDec, natDecAux, if_pos hn]
    rw [hne]
    show (if 48 + n = 48 ∧ ([] : List Nat) ≠ [] then none
        else some (natFromDigits [48 + n], rest)) = some (n, rest)
    rw [if_neg (by simp)]
    have hv : natFromDigits [48 + n] = n := by
      simp [natFromDigits]
    rw [hv]
  · obtain ⟨d, t, heq, hd1, hd2⟩ :=
      natDecAux_head_of_pos (Nat.lt_succ_self n) (by omega)
    have heq2 : natDec n = d :: t := heq
    rw [heq2]
    show (if d = 48 ∧ t ≠ [] then none
        else some (natFromDigits (d :: t), rest)) = some (n, rest)
    rw [if_neg (by omega)]
    have := natFromDigits_natDec n
    rw [heq2] at this
    rw [this]

theorem parseNum_intDec (n : Int) (rest : List Nat)
    (hb : ∀ c, rest.head? = some c → isDigitB c = false) :
    parseNum (intDec n ++ rest) = some (n, rest) := by
  rw [intDec]
  by_cases hn : n < 0
  · rw [if_pos hn]
    rw [List.cons_append, parseNum_cons, if_pos rfl]
    rw [parseNumNat_natDec _ _ hb]
    simp only [Option.map_some', Option.some.injEq, Prod.mk.injEq]
    refine ⟨by omega, trivial⟩
  · rw [if_neg hn]
    obtain ⟨d, t, heq⟩ : ∃ d t, natDec n.toNat = d :: t := by
      cases h : natDec n.toNat with
      | nil => exact absurd h (natDec_ne_nil _)
      | cons d t => exact ⟨d, t, rfl⟩
    have hd : 48 ≤ d ∧ d ≤ 57 := natDec_mem d (by rw [heq]; simp)
    rw [heq, List.cons_append, parseNum_cons, if_neg (by omega)]
    rw [← List.cons_append, ← heq, parseNumNat_natDec _ _ hb]
    simp only [Option.map_some', Option.some.injEq, Prod.mk.injEq]
    refine ⟨by omega, trivial⟩

/-! ### String escaping round trip -/

theorem hexVal_hexDig {x : Nat} (h : x < 16) : hexVal (hexDig x) = some x := by
  rw [hexDig, hexVal]
  by_cases hx : x < 10
  · rw [if_pos hx, if_pos (by omega)]
    congr 1
    omega
  · rw [if_neg hx, if_neg (by omega), if_pos (by omega)]
    congr 1
    omega

theorem parseStrBody_cons (c : Nat) (rest : List Nat) :
    parseStrBody (c :: rest) =
      (if c = 34 then some ([], rest)
      else if c = 92 then
        match rest with
        | [] => none
        | e :: rest2 =>
            if e = 117 then
              match rest2 with
              | a :: b :: c2 :: d :: rest3 =>
                  match hexVal a, hexVal b, hexVal c2, hexVal d with
                  | some x1, some x2, some x3, some x4 =>
                      match parseStrBody rest3 with
                      | some (s, r) => some ((x1 * 4096 + x2 * 256 + x3 * 16 + x4) :: s, r)
                      | none => none
                  | _, _, _, _ => none
              | _ => none
            else
              match unesc e with
              | some u =>
                  match parseStrBody rest2 with
                  | some (s, r) => some (u :: s, r)
                  | none => none
              | none => none
      else if c < 32 then none
      else
        match parseStrBody rest with
        | some (s, r) => some (c :: s, r)
        | none => none) := by
  rw [parseStrBody.eq_def]

theorem parseStrBody_escape (s : List Nat) (hs : ∀ c ∈ s, c < 65536)
    (rest : List Nat) :
    parseStrBody (escapeStr s ++ (34 :: rest)) = some (s, rest) := by
  induction s with
  | nil => simp [escapeStr, parseStrBody_cons]
  | cons c t ih =>
      have hc : c < 65536 := hs c (by simp)
      have iht := ih (fun b hb => hs b (by simp [hb]))
      have hesc : escapeStr (c :: t) ++ (34 :: rest)
          = escChar c ++ (escapeStr t ++ (34 :: rest)) := by
        simp [escapeStr]
      rw [hesc]
      by_cases h1 : c = 34
      · subst h1
        simp [escChar, parseStrBody_cons, unesc, iht]
      by_cases h2 : c = 92
      · subst h2
        simp [escChar, parseStrBody_cons, unesc, iht]
      by_cases h3 : c = 10
      · subst h3
        simp [escChar, parseStrBody_cons, unesc, iht]
      by_cases h4 : c = 13
      · subst h4
        simp [escChar, parseStrBody_cons, unesc, iht]
      by_cases h5 : c = 9
      · subst h5
        simp [escChar, parseStrBody_cons, unesc, iht]
      by_cases h6 : c = 8
      · subst h6
        simp [escChar, parseStrBody_cons, unesc, iht]
      by_cases h7 : c = 12
      · subst h7
        simp [escChar, parseStrBody_cons, unesc, iht]
      by_cases h8 : 32 ≤ c ∧ c ≤ 126
      · have hch : escChar c = [c] := by
          rw [escChar, if_neg h1, if_neg h2, if_neg h3, if_neg h4, if_neg h5,
            if_neg h6, if_neg h7, if_pos h8]
        rw [hch, List.singleton_append, parseStrBody_cons,
          if_neg h1, if_neg h2, if_neg (show ¬c < 32 by omega), iht]
      · have hch : escChar c = [92, 117, hexDig (c / 4096 % 16), hexDig (c / 256 % 16),
            hexDig (c / 16 % 16), hexDig (c % 16)] := by
          rw [escChar, if_neg h1, if_neg h2, if_neg h3, if_neg h4, if_neg h5,
            if_neg h6, if_neg h7, if_neg h8]
        have hx1 := hexVal_hexDig (show c / 4096 % 16 < 16 from Nat.mod_lt _ (by norm_num))
        have hx2 := hexVal_hexDig (show c / 256 % 16 < 16 from Nat.mod_lt _ (by norm_num))
        have hx3 := hexVal_hexDig (show c / 16 % 16 < 16 from Nat.mod_lt _ (by norm_num))
        have hx4 := hexVal_hexDig (show c % 16 < 16 from Nat.mod_lt _ (by norm_num))
        have hval : c / 4096 % 16 * 4096 + c / 256 % 16 * 256 + c / 16 % 16 * 16 + c % 16
            = c := by omega
        rw [hch]
        simp only [List.cons_append, List.nil_append]
        rw [parseStrBody_cons, if_neg (by norm_num), if_pos rfl]
        simp only [if_pos rfl, hx1, hx2, hx3, hx4, iht, hval]
        simp

/-! ### Scalar value round trip -/

theorem parseScalar_cons (c : Nat) (rest : List Nat) :
    parseScalar (c :: rest) =
      (if c = 34 then (parseStrBody rest).map (fun p => (PVal.pstr p.1, p.2))
      else if c = 116 then
        match rest with
        | 114 :: 117 :: 101 :: r => some (PVal.pbool true, r)
        | _ => none
      else if c = 102 then
        match rest with
        | 97 :: 108 :: 115 :: 101 :: r => some (PVal.pbool false, r)
        | _ => none
      else (parseNum (c :: rest)).map (fun p => (PVal.pint p.1, p.2))) := by
  rw [parseScalar.eq_def]

theorem intDec_head (n : Int) :
    ∃ d t, intDec n = d :: t ∧ (d = 45 ∨ (48 ≤ d ∧ d ≤ 57)) := by
  rw [intDec]
  by_cases hn : n < 0
  · rw [if_pos hn]
    exact ⟨45, _, rfl, Or.inl rfl⟩
  · rw [if_neg hn]
    obtain ⟨d, t, heq⟩ : ∃ d t, natDec n.toNat = d :: t := by
      cases h : natDec n.toNat with
      | nil => exact absurd h (natDec_ne_nil _)
      | cons d t => exact ⟨d, t, rfl⟩
    exact ⟨d, t, heq, Or.inr (natDec_mem d (by rw [heq]; simp))⟩

theorem parseScalar_encVal {v : PVal} {vs : List Nat} (h : encVal v = some vs)
    (rest : List Nat) (hb : ∀ c, rest.head? = some c → isDigitB c = false) :
    parseScalar (vs ++ rest) = some (v, rest) := by
  cases v with
  | pint n =>
      simp only [encVal, Option.some.injEq] at h
      subst h
      obtain ⟨d, t, hdt, hd⟩ := intDec_head n
      rw [hdt, List.cons_append, parseScalar_cons,
        if_neg (by omega), if_neg (by omega), if_neg (by omega),
        ← List.cons_append, ← hdt, parseNum_intDec n rest hb]
      rfl
  | pbool b =>
      cases b with
      | true =>
          simp only [encVal, Option.some.injEq] at h
          subst h
          rw [show sb "true" = [116, 114, 117, 101] from rfl]
          simp [parseScalar_cons]
      | false =>
          simp only [encVal, Option.some.injEq] at h
          subst h
          rw [show sb "false" = [102, 97, 108, 115, 101] from rfl]
          simp [parseScalar_cons]
  | pstr s =>
      simp only [encVal, encStr] at h
      by_cases hall : s.all (fun c => c < 65536)
      · rw [if_pos hall] at h
        simp only [Option.some.injEq] at h
        subst h
        rw [List.cons_append, parseScalar_cons, if_pos rfl]
        have hassoc : (escapeStr s ++ [34]) ++ rest = escapeStr s ++ (34 :: rest) := by
          simp
        rw [hassoc, parseStrBody_escape s (by simpa using hall) rest]
        rfl
      · rw [if_neg hall] at h
        exact absurd h (by simp)
  | pfun => simp [encVal] at h

theorem encVal_head {v : PVal} {vs : List Nat} (h : encVal v = some vs) :
    ∃ c t, vs = c :: t ∧ isWsB c = false := by
  cases v with
  | pint n =>
      simp only [encVal, Option.some.injEq] at h
      subst h
      obtain ⟨d, t, hdt, hd⟩ := intDec_head n
      refine ⟨d, t, hdt, ?_⟩
      simp only [isWsB]
      simp only [Bool.or_eq_false_iff, decide_eq_false_iff_not]
      omega
  | pbool b =>
      cases b with
      | true =>
          simp only [encVal, Option.some.injEq] at h
          subst h
          exact ⟨116, _, rfl, by decide⟩
      | false =>
          simp only [encVal, Option.some.injEq] at h
          subst h
          exact ⟨102, _, rfl, by decide⟩
  | pstr s =>
      simp only [encVal, encStr] at h
      by_cases hall : s.all (fun c => c < 65536)
      · rw [if_pos hall] at h
        simp only [Option.some.injEq] at h
        subst h
        exact ⟨34, _, rfl, by decide⟩
      · rw [if_neg hall] at h
        exact absurd h (by simp)
  | pfun => simp [encVal] at h

/-! ### No newline in the header -/

theorem hexDig_ne_ten (x : Nat) : hexDig x ≠ 10 := by
  rw [hexDig]
  split <;> omega

theorem escChar_mem_ne_ten (c : Nat) : ∀ d ∈ escChar c, d ≠ 10 := by
  intro d hd
  rw [escChar] at hd
  split_ifs at hd with h1 h2 h3 h4 h5 h6 h7 h8 <;> simp at hd <;>
    first
      | omega
      | (rcases hd with hd | hd | hd | hd | hd | hd <;>
          first
            | omega
            | (subst hd; exact hexDig_ne_ten _))

theorem escapeStr_mem_ne_ten (s : List Nat) : ∀ d ∈ escapeStr s, d ≠ 10 := by
  intro d hd
  rw [escapeStr] at hd
  obtain ⟨c, _, hc⟩ := List.mem_flatMap.mp hd
  exact escChar_mem_ne_ten c d hc

theorem intDec_mem_ne_ten (n : Int) : ∀ d ∈ intDec n, d ≠ 10 := by
  intro d hd
  rw [intDec] at hd
  split_ifs at hd with h1
  · rcases List.mem_cons.mp hd with hd | hd
    · omega
    · have := natDec_mem d hd
      omega
  · have := natDec_mem d hd
    omega

theorem encVal_mem_ne_ten {v : PVal} {vs : List Nat} (h : encVal v = some vs) :
    ∀ d ∈ vs, d ≠ 10 := by
  intro d hd
  cases v with
  | pint n =>
      simp only [encVal, Option.some.injEq] at h
      subst h
      exact intDec_mem_ne_ten n d hd
  | pbool b =>
      cases b with
      | true =>
          simp only [encVal, Option.some.injEq] at h
          subst h
          rw [show sb "true" = [116, 114, 117, 101] from rfl] at hd
          simp at hd
          omega
      | false =>
          simp only [encVal, Option.some.injEq] at h
          subst h
          rw [show sb "false" = [102, 97, 108, 115, 101] from rfl] at hd
          simp at hd
          omega
  | pstr s =>
      simp only [encVal, encStr] at h
      by_cases hall : s.all (fun c => c < 65536)
      · rw [if_pos hall] at h
        simp only [Option.some.injEq] at h
        subst h
        rcases List.mem_cons.mp hd with hd | hd
        · omega
        · rcases List.mem_append.mp hd with hd | hd
          · exact escapeStr_mem_ne_ten s d hd
          · simp at hd
            omega
      · rw [if_neg hall] at h
        exact absurd h (by simp)
  | pfun => simp [encVal] at h

theorem encPair_mem_ne_ten {k : List Nat} {v : PVal} {a : List Nat}
    (h : encPair k v = some a) : ∀ d ∈ a, d ≠ 10 := by
  intro d hd
  rw [encPair] at h
  cases hks : encStr k with
  | none => rw [hks] at h; exact absurd h (by simp)
  | some ks =>
      cases hvs : encVal v with
      | none => rw [hks, hvs] at h; exact absurd h (by simp)
      | some vs =>
          rw [hks, hvs] at h
          simp only [Option.some.injEq] at h
          subst h
          rcases List.mem_append.mp hd with hd | hd
          · exact encVal_mem_ne_ten
              (show encVal (PVal.pstr k) = some ks by simp [encVal, hks]) d hd
          · rcases List.mem_cons.mp hd with hd | hd
            · omega
            · rcases List.mem_cons.mp hd with hd | hd
              · omega
              · exact encVal_mem_ne_ten hvs d hd

theorem encPairs_mem_ne_ten {H : PyDict} {body : List Nat}
    (h : encPairs H = some body) : ∀ d ∈ body, d ≠ 10 := by
  induction H generalizing body with
  | nil =>
      rw [encPairs] at h
      simp only [Option.some.injEq] at h
      subst h
      simp
  | cons p t ih =>
      cases t with
      | nil =>
          rw [encPairs] at h
          exact encPair_mem_ne_ten h
      | cons q t2 =>
          rw [encPairs] at h
          cases ha : encPair p.1 p.2 with
          | none => rw [ha] at h; exact absurd h (by simp)
          | some a =>
              cases hb : encPairs (q :: t2) with
              | none => rw [ha, hb] at h; exact absurd h (by simp)
              | some b =>
                  rw [ha, hb] at h
                  simp only [Option.some.injEq] at h
                  subst h
                  intro d hd
                  rcases List.mem_append.mp hd with hd | hd
                  · exact encPair_mem_ne_ten ha d hd
                  · rcases List.mem_cons.mp hd with hd | hd
                    · omega
                    · rcases List.mem_cons.mp hd with hd | hd
                      · omega
                      · exact ih hb d hd

theorem dumps_mem_ne_ten {H : PyDict} {line : List Nat}
    (h : dumps H = some line) : ∀ d ∈ line, d ≠ 10 := by
  rw [dumps] at h
  cases hb : encPairs H with
  | none => rw [hb] at h; exact absurd h (by simp)
  | some body =>
      rw [hb] at h
      simp only [Option.map_some', Option.some.injEq] at h
      subst h
      intro d hd
      rcases List.mem_cons.mp hd with hd | hd
      · omega
      · rcases List.mem_append.mp hd with hd | hd
        · exact encPairs_mem_ne_ten hb d hd
        · simp at hd
          omega

/-! ### Splitting the stream at the first newline -/

theorem readline_split {line rest : List Nat} (h : ∀ a ∈ line, a ≠ 10) :
    readline (line ++ 10 :: rest) = (line, rest) := by
  rw [readline]
  have h1 : ∀ a ∈ line, (fun c => decide (c ≠ 10)) a = true := by
    intro a ha
    simpa using h a ha
  have h2 : ∀ c, (10 :: rest).head? = some c → (fun c => decide (c ≠ 10)) c = false := by
    intro c hc
    simp only [List.head?_cons, Option.some.injEq] at hc
    subst hc
    simp
  rw [takeWhile_append_eq h1 h2, dropWhile_append_eq h1 h2]
  rfl

/-! ### Object parsing round trip -/

theorem parsePairs_succ (fuel : Nat) (l : List Nat) :
    parsePairs (fuel + 1) l =
      (match skipWs l with
      | 34 :: r1 =>
          match parseStrBody r1 with
          | none => none
          | some (k, r2) =>
              match skipWs r2 with
              | 58 :: r3 =>
                  match parseScalar (skipWs r3) with
                  | none => none
                  | some (v, r4) =>
                      match skipWs r4 with
                      | 44 :: r5 =>
                          (parsePairs fuel r5).map (fun p => ((k, v) :: p.1, p.2))
                      | 125 :: r5 => some ([(k, v)], r5)
                      | _ => none
              | _ => none
      | _ => none) := by
  rw [parsePairs.eq_def]

theorem parsePairs_space (fuel : Nat) (l : List Nat) :
    parsePairs fuel (32 :: l) = parsePairs fuel l := by
  cases fuel with
  | zero => rfl
  | succ f => rw [parsePairs_succ, parsePairs_succ, skipWs_space]

theorem parsePairs_step_last {fuel : Nat} {l r1 r2 r3 r4 r5 k : List Nat} {v : PVal}
    (h1 : skipWs l = 34 :: r1) (h2 : parseStrBody r1 = some (k, r2))
    (h3 : skipWs r2 = 58 :: r3) (h4 : parseScalar (skipWs r3) = some (v, r4))
    (h5 : skipWs r4 = 125 :: r5) :
    parsePairs (fuel + 1) l = some ([(k, v)], r5) := by
  rw [parsePairs_succ, h1]
  simp only [h2, h3, h4, h5]

theorem parsePairs_step_cons {fuel : Nat} {l r1 r2 r3 r4 r5 k : List Nat} {v : PVal}
    {obj : PyDict} {rest : List Nat}
    (h1 : skipWs l = 34 :: r1) (h2 : parseStrBody r1 = some (k, r2))
    (h3 : skipWs r2 = 58 :: r3) (h4 : parseScalar (skipWs r3) = some (v, r4))
    (h5 : skipWs r4 = 44 :: r5) (h6 : parsePairs fuel r5 = some (obj, rest)) :
    parsePairs (fuel + 1) l = some ((k, v) :: obj, rest) := by
  rw [parsePairs_succ, h1]
  simp only [h2, h3, h4, h5, h6, Option.map_some']

theorem encStr_parts {k ks : List Nat} (h : encStr k = some ks) :
    (∀ c ∈ k, c < 65536) ∧ ks = 34 :: (escapeStr k ++ [34]) := by
  rw [encStr] at h
  by_cases hall : k.all (fun c => c < 65536)
  · rw [if_pos hall] at h
    simp only [Option.some.injEq] at h
    exact ⟨by simpa using hall, h.symm⟩
  · rw [if_neg hall] at h
    exact absurd h (by simp)

theorem encPair_parts {k : List Nat} {v : PVal} {a : List Nat}
    (h : encPair k v = some a) :
    ∃ vs, encVal v = some vs ∧ (∀ c ∈ k, c < 65536) ∧
      a = 34 :: ((escapeStr k ++ [34]) ++ (58 :: 32 :: vs)) := by
  rw [encPair] at h
  cases hks : encStr k with
  | none => rw [hks] at h; exact absurd h (by simp)
  | some ks =>
      cases hvs : encVal v with
      | none => rw [hks, hvs] at h; exact absurd h (by simp)
      | some vs =>
          rw [hks, hvs] at h
          simp only [Option.some.injEq] at h
          obtain ⟨hk, hks2⟩ := encStr_parts hks
          subst hks2
          exact ⟨vs, rfl, hk, by rw [← h]; simp⟩

theorem encPairs_head {H : PyDict} {body : List Nat} (hne : H ≠ [])
    (h : encPairs H = some body) : ∃ t2, body = 34 :: t2 := by
  cases H with
  | nil => exact absurd rfl hne
  | cons p t =>
      cases t with
      | nil =>
          rw [encPairs] at h
          obtain ⟨vs, _, _, ha⟩ := encPair_parts h
          exact ⟨_, ha⟩
      | cons q t2 =>
          rw [encPairs] at h
          cases ha : encPair p.1 p.2 with
          | none => rw [ha] at h; exact absurd h (by simp)
          | some a =>
              cases hb : encPairs (q :: t2) with
              | none => rw [ha, hb] at h; exact absurd h (by simp)
              | some b =>
                  rw [ha, hb] at h
                  simp only [Option.some.injEq] at h
                  obtain ⟨vs, _, _, ha2⟩ := encPair_parts ha
                  subst ha2
                  refine ⟨(escapeStr p.1 ++ [34] ++ 58 :: 32 :: vs) ++ 44 :: 32 :: b, ?_⟩
                  rw [← h]
                  rfl

theorem encPairs_length {H : PyDict} {body : List Nat}
    (h : encPairs H = some body) : H.length ≤ body.length := by
  induction H generalizing body with
  | nil => simp
  | cons p t ih =>
      cases t with
      | nil =>
          rw [encPairs] at h
          obtain ⟨vs, _, _, ha⟩ := encPair_parts h
          subst ha
          simp
      | cons q t2 =>
          rw [encPairs] at h
          cases ha : encPair p.1 p.2 with
          | none => rw [ha] at h; exact absurd h (by simp)
          | some a =>
              cases hb : encPairs (q :: t2) with
              | none => rw [ha, hb] at h; exact absurd h (by simp)
              | some b =>
                  rw [ha, hb] at h
                  simp only [Option.some.injEq] at h
                  subst h
                  have hlen2 := ih hb
                  simp only [List.length_cons, List.length_append] at hlen2 ⊢
                  omega

theorem loads_of_pairs {l r rp : List Nat} {H : PyDict}
    (h1 : skipWs l = 123 :: r) (h2 : skipWs r = 34 :: rp)
    (h3 : parsePairs (l.length + 1) (34 :: rp) = some (H, [])) :
    loads l = some H := by
  rw [loads.eq_def, h1]
  simp only [h2, h3]
  simp [skipWs]

theorem parsePairs_enc {H : PyDict} {body : List Nat} (hne : H ≠ [])
    (h : encPairs H = some body) :
    ∀ fuel, H.length ≤ fuel → ∀ rest,
      parsePairs fuel (body ++ (125 :: rest)) = some (H, rest) := by
  induction H generalizing body with
  | nil => exact absurd rfl hne
  | cons p t ih =>
      intro fuel hfuel rest
      obtain ⟨f, rfl⟩ : ∃ f, fuel = f + 1 := by
        refine ⟨fuel - 1, ?_⟩
        simp at hfuel
        omega
      obtain ⟨k, v⟩ := p
      cases t with
      | nil =>
          rw [encPairs] at h
          obtain ⟨vs, hvs, hk, ha⟩ := encPair_parts h
          subst ha
          obtain ⟨c0, t0, hvs0, hc0⟩ := encVal_head hvs
          have hshape : (34 :: ((escapeStr k ++ [34]) ++ (58 :: 32 :: vs))) ++ (125 :: rest)
              = 34 :: (escapeStr k ++ (34 :: (58 :: (32 :: (vs ++ (125 :: rest)))))) := by
            simp
          rw [hshape]
          have h4 : parseScalar (skipWs (32 :: (vs ++ (125 :: rest))))
              = some (v, 125 :: rest) := by
            rw [skipWs_space]
            have hsv : skipWs (vs ++ (125 :: rest)) = vs ++ (125 :: rest) := by
              rw [hvs0, List.cons_append]
              exact skipWs_cons_of_not_ws hc0
            rw [hsv]
            exact parseScalar_encVal hvs _
              (by intro c hc
                  simp only [List.head?_cons, Option.some.injEq] at hc
                  subst hc
                  decide)
          exact parsePairs_step_last (skipWs_cons_of_not_ws (by decide))
            (parseStrBody_escape k hk (58 :: (32 :: (vs ++ (125 :: rest)))))
            (skipWs_cons_of_not_ws (by decide)) h4
            (skipWs_cons_of_not_ws (by decide))
      | cons q t2 =>
          rw [encPairs] at h
          cases ha : encPair k v with
          | none => rw [ha] at h; exact absurd h (by simp)
          | some a =>
              cases hb : encPairs (q :: t2) with
              | none => rw [ha, hb] at h; exact absurd h (by simp)
              | some b =>
                  rw [ha, hb] at h
                  simp only [Option.some.injEq] at h
                  subst h
                  obtain ⟨vs, hvs, hk, ha2⟩ := encPair_parts ha
                  subst ha2
                  obtain ⟨c0, t0, hvs0, hc0⟩ := encVal_head hvs
                  have hshape : ((34 :: ((escapeStr k ++ [34]) ++ (58 :: 32 :: vs)))
                        ++ (44 :: 32 :: b)) ++ (125 :: rest)
                      = 34 :: (escapeStr k ++ (34 :: (58 :: (32 ::
                          (vs ++ (44 :: (32 :: (b ++ (125 :: rest))))))))) := by
                    simp
                  rw [hshape]
                  have hlen : (q :: t2).length ≤ f := by
                    simp only [List.length_cons] at hfuel ⊢
                    omega
                  have h4 : parseScalar (skipWs (32 ::
                        (vs ++ (44 :: (32 :: (b ++ (125 :: rest)))))))
                      = some (v, 44 :: (32 :: (b ++ (125 :: rest)))) := by
                    rw [skipWs_space]
                    have hsv : skipWs (vs ++ (44 :: (32 :: (b ++ (125 :: rest)))))
                        = vs ++ (44 :: (32 :: (b ++ (125 :: rest)))) := by
                      rw [hvs0, List.cons_append]
                      exact skipWs_cons_of_not_ws hc0
                    rw [hsv]
                    exact parseScalar_encVal hvs _
                      (by intro c hc
                          simp only [List.head?_cons, Option.some.injEq] at hc
                          subst hc
                          decide)
                  have h6 : parsePairs f (32 :: (b ++ (125 :: rest)))
                      = some (q :: t2, rest) := by
                    rw [parsePairs_space]
                    exact ih (by simp) hb f hlen rest
                  exact parsePairs_step_cons (skipWs_cons_of_not_ws (by decide))
                    (parseStrBody_escape k hk
                      (58 :: (32 :: (vs ++ (44 :: (32 :: (b ++ (125 :: rest))))))))
                    (skipWs_cons_of_not_ws (by decide)) h4
                    (skipWs_cons_of_not_ws (by decide)) h6

theorem loads_dumps {H : PyDict} {line : List Nat} (h : dumps H = some line) :
    loads line = some H := by
  rw [dumps] at h
  cases hb : encPairs H with
  | none => rw [hb] at h; exact absurd h (by simp)
  | some body =>
      rw [hb] at h
      simp only [Option.map_some', Option.some.injEq] at h
      subst h
      cases H with
      | nil =>
          rw [encPairs] at hb
          simp only [Option.some.injEq] at hb
          subst hb
          rfl
      | cons p t =>
          obtain ⟨t2, rfl⟩ := encPairs_head (by simp) hb
          have hpp := parsePairs_enc (by simp) hb
            ((123 :: ((34 :: t2) ++ [125])).length + 1)
            (by
              have := encPairs_length hb
              simp only [List.length_cons, List.length_append] at this ⊢
              omega) []
          simp only [List.cons_append] at hpp
          exact loads_of_pairs (skipWs_cons_of_not_ws (by decide))
            (by
              rw [List.cons_append]
              exact skipWs_cons_of_not_ws (by decide)) hpp

/-! ### Leaf serialisation round trip -/

theorem decodeLayout_encodeLayout (l : Layout) (rest : List Nat) :
    decodeLayout (encodeLayout l ++ rest) = some (l, rest) := by
  show decodeLayout (l.dtypeCode :: l.shape.length :: (l.shape ++ rest)) = some (l, rest)
  rw [decodeLayout]
  rw [if_pos (by simp)]
  rw [List.take_left, List.drop_left]

theorem tree_serialise_cons (lf : Leaf) (t : List Leaf) :
    tree_serialise_leaves (lf :: t)
      = encodeLayout lf.layout ++ (lf.data ++ tree_serialise_leaves t) := by
  simp [tree_serialise_leaves]

theorem deserialiseLayouts_cons (lay : Layout) (t : List Layout) (bs : List Nat) :
    deserialiseLayouts (lay :: t) bs =
      (match decodeLayout bs with
      | none => .error .truncatedStream
      | some (l2, rest) =>
          if l2 = lay then
            if lay.byteSize ≤ rest.length then
              (deserialiseLayouts t (rest.drop lay.byteSize)).map
                (fun ls => ⟨lay, rest.take lay.byteSize⟩ :: ls)
            else .error .truncatedStream
          else .error .shapeMismatch) := by
  rw [deserialiseLayouts.eq_def]

theorem deserialise_serialise {ls : List Leaf} (h : LeavesWF ls) :
    deserialiseLayouts (ls.map Leaf.layout) (tree_serialise_leaves ls) = .ok ls := by
  induction ls with
  | nil => rfl
  | cons lf t ih =>
      have hlen : lf.data.length = lf.layout.byteSize := h lf (by simp)
      have ihh := ih (fun x hx => h x (by simp [hx]))
      rw [List.map_cons, tree_serialise_cons, deserialiseLayouts_cons,
        decodeLayout_encodeLayout]
      rw [show lf.layout.byteSize = lf.data.length from hlen.symm]
      simp only [if_pos rfl, List.take_left, List.drop_left, ihh]
      simp [Except.map]

/-! ### The constructor's leaves -/

theorem mkLeaves_map_layout (key : Nat) (ls : List Layout) :
    ∀ i, (mkLeaves key i ls).map Leaf.layout = ls := by
  induction ls with
  | nil => intro i; rfl
  | cons lay t ih =>
      intro i
      rw [mkLeaves, List.map_cons, ih (i + 1)]

theorem mkLeaves_wf (key : Nat) (ls : List Layout) :
    ∀ i, LeavesWF (mkLeaves key i ls) := by
  induction ls with
  | nil =>
      intro i lf hlf
      rw [mkLeaves] at hlf
      simp at hlf
  | cons lay t ih =>
      intro i lf hlf
      rw [mkLeaves] at hlf
      rcases List.mem_cons.mp hlf with h | h
      · subst h
        simp
      · exact ih (i + 1) lf h

theorem make_map_layout (key s w d : Nat) (u : Bool) :
    (make key s w d u).leaves.map Leaf.layout = layoutsOf s w d :=
  mkLeaves_map_layout key (layoutsOf s w d) 0

theorem make_wf (key s w d : Nat) (u : Bool) : LeavesWF (make key s w d u).leaves :=
  mkLeaves_wf key (layoutsOf s w d) 0

theorem make_useTanh (key s w d : Nat) (u : Bool) : (make key s w d u).useTanh = u := rfl

/-! ### Parameter binding facts -/

theorem makeFromParams_ok {key : Nat} {H : PyDict} {M : Model}
    (h : makeFromParams key H = .ok M) :
    ∃ q, paramsOf H = .ok q ∧ M = make key q.1 q.2.1 q.2.2.1 q.2.2.2 := by
  rw [makeFromParams] at h
  cases hq : paramsOf H with
  | error e => rw [hq] at h; exact absurd h (by simp [Except.map])
  | ok q =>
      rw [hq] at h
      simp only [Except.map, Except.ok.injEq] at h
      exact ⟨q, rfl, h.symm⟩

theorem makeFromParams_of_paramsOf {key : Nat} {H : PyDict}
    {q : Nat × Nat × Nat × Bool} (h : paramsOf H = .ok q) :
    makeFromParams key H = .ok (make key q.1 q.2.1 q.2.2.1 q.2.2.2) := by
  rw [makeFromParams, h]
  rfl

theorem getIntParam_ok {H : PyDict} {k : List Nat} {n : Nat}
    (h : getIntParam H k = .ok n) :
    ∃ m : Int, lookupK H k = some (.pint m) ∧ 0 ≤ m ∧ n = m.toNat := by
  rw [getIntParam] at h
  cases hl : lookupK H k with
  | none => rw [hl] at h; exact absurd h (by simp)
  | some v =>
      cases v with
      | pint m =>
          rw [hl] at h
          have h2 : (if 0 ≤ m then (Except.ok m.toNat : Except Err Nat)
              else Except.error Err.constructorError) = .ok n := h
          by_cases hm : 0 ≤ m
          · rw [if_pos hm] at h2
            simp only [Except.ok.injEq] at h2
            exact ⟨m, rfl, hm, h2.symm⟩
          · rw [if_neg hm] at h2
            exact absurd h2 (by simp)
      | pbool b => rw [hl] at h; exact absurd h (by simp)
      | pstr s => rw [hl] at h; exact absurd h (by simp)
      | pfun => rw [hl] at h; exact absurd h (by simp)

theorem getBoolParam_ok {H : PyDict} {k : List Nat} {b : Bool}
    (h : getBoolParam H k = .ok b) :
    lookupK H k = none ∨ lookupK H k = some (.pbool b) := by
  rw [getBoolParam] at h
  cases hl : lookupK H k with
  | none => exact Or.inl rfl
  | some v =>
      cases v with
      | pbool b2 =>
          rw [hl] at h
          simp only [Except.ok.injEq] at h
          subst h
          exact Or.inr rfl
      | pint m => rw [hl] at h; exact absurd h (by simp)
      | pstr s => rw [hl] at h; exact absurd h (by simp)
      | pfun => rw [hl] at h; exact absurd h (by simp)

theorem paramsOf_ok_parts {H : PyDict} {q : Nat × Nat × Nat × Bool}
    (h : paramsOf H = .ok q) :
    (∀ p ∈ H, p.1 ∈ allowedKeys) ∧ (H.map Prod.fst).Nodup ∧
      getIntParam H (sb "size") = .ok q.1 ∧
      getIntParam H (sb "width") = .ok q.2.1 ∧
      getIntParam H (sb "depth") = .ok q.2.2.1 ∧
      getBoolParam H (sb "use_tanh") = .ok q.2.2.2 := by
  rw [paramsOf] at h
  by_cases hc : (∀ p ∈ H, p.1 ∈ allowedKeys) ∧ (H.map Prod.fst).Nodup
  · rw [if_pos hc] at h
    refine ⟨hc.1, hc.2, ?_⟩
    cases hs : getIntParam H (sb "size") with
    | error e => rw [hs] at h; exact absurd h (by simp [Bind.bind, Except.bind])
    | ok s =>
        rw [hs] at h
        cases hw : getIntParam H (sb "width") with
        | error e => rw [hw] at h; exact absurd h (by simp [Bind.bind, Except.bind])
        | ok w =>
            rw [hw] at h
            cases hd : getIntParam H (sb "depth") with
            | error e => rw [hd] at h; exact absurd h (by simp [Bind.bind, Except.bind])
            | ok d =>
                rw [hd] at h
                cases hu : getBoolParam H (sb "use_tanh") with
                | error e =>
                    rw [hu] at h
                    exact absurd h (by simp [Bind.bind, Except.bind])
                | ok u =>
                    rw [hu] at h
                    simp only [Bind.bind, Except.bind, Except.ok.injEq] at h
                    subst h
                    exact ⟨rfl, rfl, rfl, rfl⟩
  · rw [if_neg hc] at h
    exact absurd h (by simp)

theorem lookupK_of_nodup {H : PyDict} (hnd : (H.map Prod.fst).Nodup)
    {k : List Nat} {v : PVal} (hm : (k, v) ∈ H) : lookupK H k = some v := by
  induction H with
  | nil => simp at hm
  | cons p t ih =>
      rw [List.map_cons, List.nodup_cons] at hnd
      rcases List.mem_cons.mp hm with h | h
      · subst h
        simp [lookupK, List.find?]
      · have hk : p.1 ≠ k := by
          intro he
          exact hnd.1 (he ▸ List.mem_map.mpr ⟨(k, v), h, rfl⟩)
        rw [lookupK, List.find?]
        rw [show (decide (p.1 = k)) = false by simp [hk]]
        exact ih hnd.2 h

theorem paramsOf_encodable {H : PyDict} {q : Nat × Nat × Nat × Bool}
    (h : paramsOf H = .ok q) :
    ∀ p ∈ H, (∃ ks, encStr p.1 = some ks) ∧ ∃ vs, encVal p.2 = some vs := by
  obtain ⟨hkeys, hnd, hs, hw, hd, hu⟩ := paramsOf_ok_parts h
  intro p hp
  have hlk : lookupK H p.1 = some p.2 := lookupK_of_nodup hnd hp
  have hpk := hkeys p hp
  have hkok : ∃ ks, encStr p.1 = some ks := by
    rw [allowedKeys] at hpk
    simp only [List.mem_cons, List.not_mem_nil, or_false] at hpk
    rcases hpk with h1 | h1 | h1 | h1 <;> rw [h1] <;> exact ⟨_, by rfl⟩
  refine ⟨hkok, ?_⟩
  rw [allowedKeys] at hpk
  simp only [List.mem_cons, List.not_mem_nil, or_false] at hpk
  rcases hpk with h1 | h1 | h1 | h1
  · obtain ⟨m, hm, _, _⟩ := getIntParam_ok hs
    rw [h1] at hlk
    rw [hm] at hlk
    simp only [Option.some.injEq] at hlk
    exact ⟨intDec m, by rw [← hlk]; rfl⟩
  · obtain ⟨m, hm, _, _⟩ := getIntParam_ok hw
    rw [h1] at hlk
    rw [hm] at hlk
    simp only [Option.some.injEq] at hlk
    exact ⟨intDec m, by rw [← hlk]; rfl⟩
  · obtain ⟨m, hm, _, _⟩ := getIntParam_ok hd
    rw [h1] at hlk
    rw [hm] at hlk
    simp only [Option.some.injEq] at hlk
    exact ⟨intDec m, by rw [← hlk]; rfl⟩
  · rcases getBoolParam_ok hu with hm | hm
    · rw [h1] at hlk
      rw [hm] at hlk
      exact absurd hlk (by simp)
    · rw [h1] at hlk
      rw [hm] at hlk
      simp only [Option.some.injEq] at hlk
      cases hb2 : q.2.2.2 with
      | true =>
          rw [hb2] at hlk
          exact ⟨sb "true", by rw [← hlk]; rfl⟩
      | false =>
          rw [hb2] at hlk
          exact ⟨sb "false", by rw [← hlk]; rfl⟩

theorem encPairs_total {H : PyDict}
    (h : ∀ p ∈ H, (∃ ks, encStr p.1 = some ks) ∧ ∃ vs, encVal p.2 = some vs) :
    ∃ body, encPairs H = some body := by
  induction H with
  | nil => exact ⟨[], rfl⟩
  | cons p t ih =>
      obtain ⟨⟨ks, hks⟩, ⟨vs, hvs⟩⟩ := h p (by simp)
      have hpair : encPair p.1 p.2 = some (ks ++ 58 :: 32 :: vs) := by
        rw [encPair, hks, hvs]
      cases t with
      | nil => exact ⟨_, by rw [encPairs]; exact hpair⟩
      | cons q t2 =>
          obtain ⟨b, hb⟩ := ih (fun x hx => h x (by simp [hx]))
          exact ⟨_, by rw [encPairs, hpair, hb]⟩

theorem dumps_total {H : PyDict}
    (h : ∀ p ∈ H, (∃ ks, encStr p.1 = some ks) ∧ ∃ vs, encVal p.2 = some vs) :
    ∃ line, dumps H = some line := by
  obtain ⟨body, hb⟩ := encPairs_total h
  exact ⟨_, by rw [dumps, hb]; rfl⟩

/-! ### Structure mismatch detection -/

theorem deserialiseLayouts_nil (bs : List Nat) :
    deserialiseLayouts [] bs =
      if bs = [] then .ok [] else .error .shapeMismatch := by
  rw [deserialiseLayouts.eq_def]

theorem deserialiseLayouts_cons_some {lay : Layout} {st : List Layout}
    {bs rest : List Nat} {l2 : Layout} (h : decodeLayout bs = some (l2, rest)) :
    deserialiseLayouts (lay :: st) bs =
      (if l2 = lay then
        if lay.byteSize ≤ rest.length then
          (deserialiseLayouts st (rest.drop lay.byteSize)).map
            (fun ls => ⟨lay, rest.take lay.byteSize⟩ :: ls)
        else .error .truncatedStream
      else .error .shapeMismatch) := by
  rw [deserialiseLayouts_cons, h]

theorem tree_serialise_cons_ne_nil (lf : Leaf) (t : List Leaf) :
    tree_serialise_leaves (lf :: t) ≠ [] := by
  rw [tree_serialise_cons]
  simp [encodeLayout]

theorem deserialise_mismatch {skel : List Layout} {ls : List Leaf}
    (hwf : LeavesWF ls) (hne : skel ≠ ls.map Leaf.layout) :
    deserialiseLayouts skel (tree_serialise_leaves ls) = .error .shapeMismatch ∨
      deserialiseLayouts skel (tree_serialise_leaves ls) = .error .truncatedStream := by
  induction skel generalizing ls with
  | nil =>
      cases ls with
      | nil => exact absurd rfl hne
      | cons lf t =>
          left
          rw [deserialiseLayouts_nil, if_neg (tree_serialise_cons_ne_nil lf t)]
  | cons lay st ih =>
      cases ls with
      | nil =>
          right
          rfl
      | cons lf t =>
          have hdec : decodeLayout (tree_serialise_leaves (lf :: t))
              = some (lf.layout, lf.data ++ tree_serialise_leaves t) := by
            rw [tree_serialise_cons]
            exact decodeLayout_encodeLayout lf.layout _
          rw [deserialiseLayouts_cons_some hdec]
          by_cases hl : lf.layout = lay
          · subst hl
            have hlen : lf.data.length = lf.layout.byteSize := hwf lf (by simp)
            rw [if_pos rfl,
              show lf.layout.byteSize = lf.data.length from hlen.symm,
              if_pos (by simp), List.take_left, List.drop_left]
            have ht : st ≠ t.map Leaf.layout := by
              intro he
              exact hne (by rw [List.map_cons, he])
            rcases ih (fun x hx => hwf x (by simp [hx])) ht with h | h
            · left
              rw [h]
              rfl
            · right
              rw [h]
              rfl
          · left
            rw [if_neg hl]

/-! ### The reader's key-independence and decomposition -/

theorem tree_deserialise_make (bs : List Nat) (key s w d : Nat) (u : Bool) :
    tree_deserialise_leaves bs (make key s w d u)
      = (deserialiseLayouts (layoutsOf s w d) bs).map (fun ls => ⟨u, ls⟩) := by
  rw [tree_deserialise_leaves, make_map_layout]
  rfl

theorem loadWithKey_eq (key : Nat) (bs : List Nat) :
    loadWithKey key bs = loadWithKey 0 bs := by
  rw [loadWithKey, loadWithKey, loadWith.eq_def, loadWith.eq_def]
  cases hl : loads (readline bs).1 with
  | none => rfl
  | some params =>
      simp only [makeFromParams]
      cases hq : paramsOf params with
      | error e => rfl
      | ok q =>
          simp only [Except.map]
          rw [tree_deserialise_make, tree_deserialise_make]

theorem loadWith_split (mk : PyDict → Except Err Model) {header rest : List Nat}
    (h : ∀ a ∈ header, a ≠ 10) :
    loadWith mk (header ++ 10 :: rest) =
      (match loads header with
      | none => .error .malformedHeader
      | some params =>
          match mk params with
          | .error e => .error e
          | .ok skel => (tree_deserialise_leaves rest skel).map (fun m => (params, m))) := by
  rw [loadWith.eq_def, readline_split h]

/-! ### Round trip composition -/

theorem save_load_roundtrip {key : Nat} {H : PyDict} {M : Model}
    (hM : makeFromParams key H = .ok M) :
    ∃ bs, save H M = .ok bs ∧ loadPair bs = .ok (H, M) := by
  obtain ⟨q, hq, hMq⟩ := makeFromParams_ok hM
  obtain ⟨line, hline⟩ := dumps_total (paramsOf_encodable hq)
  refine ⟨line ++ 10 :: tree_serialise_leaves M.leaves, ?_, ?_⟩
  · rw [save, hline]
  · rw [loadPair, loadWithKey,
      loadWith_split (makeFromParams 0) (dumps_mem_ne_ten hline)]
    rw [loads_dumps hline]
    have hmk0 : makeFromParams 0 H = .ok (make 0 q.1 q.2.1 q.2.2.1 q.2.2.2) :=
      makeFromParams_of_paramsOf hq
    simp only [hmk0]
    rw [tree_deserialise_make]
    subst hMq
    rw [← make_map_layout key q.1 q.2.1 q.2.2.1 q.2.2.2,
      deserialise_serialise (make_wf key q.1 q.2.1 q.2.2.1 q.2.2.2)]
    rfl

theorem getLast?_append_singleton {α : Type} (l : List α) (a : α) :
    (l ++ [a]).getLast? = some a :=
  List.getLast?_concat l

/-! ### Claims -/

/-- C1: for every hyperparameter mapping `H` accepted by the
constructor (so its values are JSON-representable) and every model `M`
the constructor builds from `H` under any PRNG key, writing `(H, M)`
succeeds and reading the produced bytes back yields exactly the pair
`(H, M)`: every weight leaf of the loaded model is bitwise identical to
`M`'s and the hyperparameter mapping recovered from the header equals
`H`. -/
theorem C1_roundtrip (key : Nat) (H : PyDict) (M : Model)
    (hM : makeFromParams key H = .ok M) :
    ∃ bs, save H M = .ok bs ∧ loadPair bs = .ok (H, M) :=
  save_load_roundtrip hM

set_option maxRecDepth 2000000 in
theorem C1_roundtrip_witness :
    makeFromParams 0 exampleH = .ok exampleM ∧
      ∃ bs, save exampleH exampleM = .ok bs ∧
        loadPair bs = .ok (exampleH, exampleM) :=
  ⟨by decide, C1_roundtrip 0 exampleH exampleM (by decide)⟩

/-- C2: whenever the writer succeeds (the hyperparameters are
JSON-representable), its output splits at the first newline byte into a
newline-free single-line JSON document that parses back to the
hyperparameter mapping, followed immediately by the contiguous
serialised weight leaves in traversal order; the header precedes every
weight byte. -/
theorem C2_writer_layout (H : PyDict) (M : Model) (out : List Nat)
    (h : save H M = .ok out) :
    ∃ line, out = line ++ 10 :: tree_serialise_leaves M.leaves ∧
      line = out.takeWhile (fun c => c ≠ 10) ∧ 10 ∉ line ∧
      loads line = some H := by
  rw [save] at h
  cases hd : dumps H with
  | none => rw [hd] at h; exact absurd h (by simp)
  | some line =>
      rw [hd] at h
      simp only [Except.ok.injEq] at h
      subst h
      have hnl := dumps_mem_ne_ten hd
      have hsplit : readline (line ++ 10 :: tree_serialise_leaves M.leaves)
          = (line, tree_serialise_leaves M.leaves) := readline_split hnl
      rw [readline] at hsplit
      have htake := congrArg Prod.fst hsplit
      simp only at htake
      exact ⟨line, rfl, htake.symm, fun hm => hnl 10 hm rfl, loads_dumps hd⟩

set_option maxRecDepth 100000 in
theorem C2_writer_layout_witness :
    save exSmallH exSmallM = .ok exSmallOut ∧
      ∃ line, exSmallOut = line ++ 10 :: tree_serialise_leaves exSmallM.leaves ∧
        line = exSmallOut.takeWhile (fun c => c ≠ 10) ∧ 10 ∉ line ∧
        loads line = some exSmallH :=
  ⟨by decide, C2_writer_layout exSmallH exSmallM exSmallOut (by decide)⟩

/-- C3: on a source whose first line is `header` (newline-free) followed
by a newline and `rest`, the reader consumes exactly the first line,
parses it as JSON (failing with `malformedHeader` otherwise), builds the
skeleton by applying the constructor to exactly the parsed
hyperparameters, and deserialises exactly `rest` into the skeleton's
leaves: no header byte is treated as weight data and no weight byte as
header data. -/
theorem C3_reader_procedure (mk : PyDict → Except Err Model)
    (header rest : List Nat) (h : ∀ a ∈ header, a ≠ 10) :
    loadWith mk (header ++ 10 :: rest) =
      (match loads header with
      | none => .error .malformedHeader
      | some params =>
          match mk params with
          | .error e => .error e
          | .ok skel =>
              (tree_deserialise_leaves rest skel).map (fun m => (params, m))) :=
  loadWith_split mk h

set_option maxRecDepth 100000 in
theorem C3_reader_procedure_witness :
    (∀ a ∈ sb "nope", a ≠ 10) ∧
      loadWith (makeFromParams 0) (sb "nope" ++ 10 :: [7, 7]) =
        (match loads (sb "nope") with
        | none => .error .malformedHeader
        | some params =>
            match makeFromParams 0 params with
            | .error e => .error e
            | .ok skel =>
                (tree_deserialise_leaves [7, 7] skel).map (fun m => (params, m))) :=
  ⟨by decide, C3_reader_procedure (makeFromParams 0) (sb "nope") [7, 7] (by decide)⟩

/-- C4 counterexample: with a non-JSON-representable hyperparameter
value, `save` does fail with `unencodableHyperparameters`, but because
`open(filename, "wb")` truncates the destination before `json.dumps`
runs, a pre-existing file (here `[42]`) is destroyed rather than
preserved — refuting the claim's "a pre-existing file at the
destination is not destroyed or truncated by the failed write". -/
theorem C4_counterexample :
    (saveFS badH exSmallM [42]).1 = .error .unencodableHyperparameters ∧
      (saveFS badH exSmallM [42]).2 ≠ [42] := by decide

/-- C4 (amended): for every hyperparameter mapping with a value that is
not JSON-representable, the writer fails with the
`unencodableHyperparameters` failure kind and writes none of the new
content — but the destination, already opened in `"wb"` mode, is left
truncated to empty rather than holding its previous contents. -/
theorem C4_unencodable_truncates (H : PyDict) (M : Model) (pre : List Nat)
    (h : dumps H = none) :
    saveFS H M pre = (.error .unencodableHyperparameters, []) := by
  rw [saveFS, save, h]

theorem C4_unencodable_truncates_witness :
    dumps badH = none ∧
      saveFS badH exSmallM [42] = (.error .unencodableHyperparameters, []) :=
  ⟨by decide, C4_unencodable_truncates badH exSmallM [42] (by decide)⟩

/-- C5: for every byte source whose first line is not a valid JSON
document, the reader fails with the `malformedHeader` failure kind —
whatever constructor it was given, so the constructor is never
invoked and the error propagates to the caller. -/
theorem C5_malformed_header (mk : PyDict → Except Err Model) (bs : List Nat)
    (h : loads (readline bs).1 = none) :
    loadWith mk bs = .error .malformedHeader := by
  rw [loadWith.eq_def, h]

theorem C5_malformed_header_witness :
    loads (readline (sb "oops" ++ 10 :: [1, 2, 3])).1 = none ∧
      loadWith (makeFromParams 0) (sb "oops" ++ 10 :: [1, 2, 3]) =
        .error .malformedHeader :=
  ⟨by decide, C5_malformed_header (makeFromParams 0) _ (by decide)⟩

/-- C6: reading a file written from a well-formed model `M` with a
constructor that returns a skeleton whose leaf layout sequence (count,
order, shapes, dtypes) differs from `M`'s fails with the
`shapeMismatch` or `truncatedStream` failure kind rather than silently
producing a model. -/
theorem C6_shape_mismatch (H : PyDict) (M : Model) (bs : List Nat)
    (mk : PyDict → Except Err Model) (skel : Model)
    (hw : save H M = .ok bs) (hwf : LeavesWF M.leaves)
    (hmk : mk H = .ok skel)
    (hne : skel.leaves.map Leaf.layout ≠ M.leaves.map Leaf.layout) :
    loadWith mk bs = .error .shapeMismatch ∨
      loadWith mk bs = .error .truncatedStream := by
  rw [save] at hw
  cases hd : dumps H with
  | none => rw [hd] at hw; exact absurd hw (by simp)
  | some line =>
      rw [hd] at hw
      simp only [Except.ok.injEq] at hw
      subst hw
      rw [loadWith_split mk (dumps_mem_ne_ten hd), loads_dumps hd]
      simp only [hmk]
      rcases deserialise_mismatch hwf hne with h | h
      · left
        rw [tree_deserialise_leaves, h]
        rfl
      · right
        rw [tree_deserialise_leaves, h]
        rfl

set_option maxRecDepth 100000 in
theorem C6_shape_mismatch_witness :
    save exSmallH exSmallM = .ok exSmallOut ∧ LeavesWF exSmallM.leaves ∧
      (fun (_ : PyDict) => (Except.ok ⟨false, []⟩ : Except Err Model)) exSmallH
        = .ok ⟨false, []⟩ ∧
      ([] : List Leaf).map Leaf.layout ≠ exSmallM.leaves.map Leaf.layout ∧
      (loadWith (fun _ => .ok ⟨false, []⟩) exSmallOut = .error .shapeMismatch ∨
        loadWith (fun _ => .ok ⟨false, []⟩) exSmallOut = .error .truncatedStream) :=
  ⟨by decide, by decide, rfl, by decide,
    C6_shape_mismatch exSmallH exSmallM exSmallOut _ ⟨false, []⟩
      (by decide) (by decide) rfl (by decide)⟩

/-- C7: the writer is deterministic — two invocations on the same
hyperparameters and model produce identical results, byte for byte. -/
theorem C7_determinism (H : PyDict) (M : Model) (out1 out2 : Except Err (List Nat))
    (h1 : save H M = out1) (h2 : save H M = out2) : out1 = out2 := by
  rw [← h1, ← h2]

set_option maxRecDepth 100000 in
theorem C7_determinism_witness :
    save exSmallH exSmallM = .ok exSmallOut ∧
      save exSmallH exSmallM = .ok exSmallOut ∧
      (Except.ok exSmallOut : Except Err (List Nat)) = .ok exSmallOut :=
  ⟨by decide, by decide,
    C7_determinism exSmallH exSmallM _ _ (by decide) (by decide)⟩

set_option maxRecDepth 2000000 in
/-- C8: the notebook's concrete example — `exampleM` is what the
constructor builds from `exampleH` with key 0; writing
`(exampleH, exampleM)` and loading the bytes back yields a model whose
float32 weight element at layer 1, position (2, 2) is bitwise equal to
`exampleM`'s, and that element exists. -/
theorem C8_example :
    makeFromParams 0 exampleH = .ok exampleM ∧
      (save exampleH exampleM >>= load).map layer1w22
        = .ok (layer1w22 exampleM) ∧
      (layer1w22 exampleM).isSome = true := by decide

/-- C9: the `with open(...)` discipline — each write operation and each
read operation opens the byte sink/source exactly once, the open is the
first event, and the close is the last event of the operation, on the
success paths and on every error path alike. -/
theorem C9_scoped_resource (H : PyDict) (M : Model) (bs : List Nat) :
    (countOpen (saveEvents H M) = 1 ∧ countClose (saveEvents H M) = 1 ∧
      (saveEvents H M).head? = some FEv.fopen ∧
      (saveEvents H M).getLast? = some FEv.fclose) ∧
    (countOpen (loadEvents bs) = 1 ∧ countClose (loadEvents bs) = 1 ∧
      (loadEvents bs).head? = some FEv.fopen ∧
      (loadEvents bs).getLast? = some FEv.fclose) := by
  constructor
  · rw [saveEvents]
    cases dumps H <;>
      simp [countOpen, countClose, List.countP_cons, List.countP_nil,
        List.countP_append, isOpenEv, isCloseEv, getLast?_append_singleton]
  · rw [loadEvents]
    cases loads (readline bs).1 with
    | none =>
        simp [countOpen, countClose, List.countP_cons, List.countP_nil,
          List.countP_append, isOpenEv, isCloseEv, getLast?_append_singleton]
    | some params =>
        cases hmk : makeFromParams 0 params <;>
          simp [hmk, countOpen, countClose, List.countP_cons, List.countP_nil,
            List.countP_append, isOpenEv, isCloseEv, getLast?_append_singleton]

/-- C10: the reader's result depends only on the file bytes — the
skeleton key (the notebook hard-codes `jr.PRNGKey(0)`, which is not
stored in the file) never influences the result, since every leaf of
the skeleton is overwritten from the file; and the notebook's `load` is
exactly the key-0 instance projected to the model. -/
theorem C10_key_independent (k1 k2 : Nat) (bs : List Nat) :
    loadWithKey k1 bs = loadWithKey k2 bs ∧
      load bs = (loadWithKey k1 bs).map Prod.snd := by
  refine ⟨?_, ?_⟩
  · rw [loadWithKey_eq k1, loadWithKey_eq k2]
  · rw [load, loadPair, loadWithKey_eq k1]

end Equinox
